import Mathlib

/-!
Shallow embedding of the naming-convention engine of eslint-plugin-graphql-naming
(src/utils/path-utils.ts and src/utils/naming-utils.ts), together with theorems
settling the frozen claims about it.

Strings are modelled as Lean strings (lists of Unicode scalar values); JavaScript
character case mapping is modelled by core Char.toUpper and Char.toLower, which agree
with JavaScript toUpperCase and toLowerCase on the basic latin range the plugin
manipulates.  Regular-expression based transformations from the source are embedded
as explicit recursions over character lists whose scanning order mirrors the
left-to-right, leftmost-match semantics of the JavaScript regexp engine.
-/

namespace GraphQLNaming

/-- Characters matched by the JavaScript regexp class \s (whitespace). -/
def jsIsSpace (c : Char) : Bool :=
  decide (c.toNat = 32 ∨ c.toNat = 9 ∨ c.toNat = 10 ∨ c.toNat = 11 ∨ c.toNat = 12 ∨
    c.toNat = 13 ∨ c.toNat = 160 ∨ c.toNat = 5760 ∨ (8192 ≤ c.toNat ∧ c.toNat ≤ 8202) ∨
    c.toNat = 8232 ∨ c.toNat = 8233 ∨ c.toNat = 8239 ∨ c.toNat = 8287 ∨ c.toNat = 12288 ∨
    c.toNat = 65279)

/-- Characters matched by the JavaScript regexp class \w (word characters). -/
def jsIsWord (c : Char) : Bool :=
  decide ((48 ≤ c.toNat ∧ c.toNat ≤ 57) ∨ (65 ≤ c.toNat ∧ c.toNat ≤ 90) ∨
    (97 ≤ c.toNat ∧ c.toNat ≤ 122) ∨ c.toNat = 95)

/-- Line terminators, the characters NOT matched by the JavaScript regexp dot. -/
def jsIsLineTerm (c : Char) : Bool :=
  decide (c.toNat = 10 ∨ c.toNat = 13 ∨ c.toNat = 8232 ∨ c.toNat = 8233)

theorem toNat_ofNat_of_lt {n : Nat} (h : n < 55296) : (Char.ofNat n).toNat = n := by
  rw [Char.ofNat, dif_pos (Or.inl h)]
  rfl

theorem toUpper_toNat (c : Char) :
    (Char.toUpper c).toNat =
      if 97 ≤ c.toNat ∧ c.toNat ≤ 122 then c.toNat - 32 else c.toNat := by
  unfold Char.toUpper
  by_cases h : 97 ≤ c.toNat ∧ c.toNat ≤ 122
  · rw [if_pos h, if_pos h]
    exact toNat_ofNat_of_lt (by omega)
  · rw [if_neg h, if_neg h]

theorem toUpper_eq_of_not {c : Char} (h : ¬ (97 ≤ c.toNat ∧ c.toNat ≤ 122)) :
    Char.toUpper c = c := by
  unfold Char.toUpper
  exact if_neg h

/-- Either toUpper leaves a character unchanged, or it produces a basic latin capital. -/
theorem toUpper_cases (c : Char) :
    Char.toUpper c = c ∨ (65 ≤ (Char.toUpper c).toNat ∧ (Char.toUpper c).toNat ≤ 90) := by
  by_cases h : 97 ≤ c.toNat ∧ c.toNat ≤ 122
  · right
    have ht := toUpper_toNat c
    rw [if_pos h] at ht
    omega
  · left
    exact toUpper_eq_of_not h

theorem toUpper_idem (c : Char) : Char.toUpper (Char.toUpper c) = Char.toUpper c := by
  by_cases h : 97 ≤ c.toNat ∧ c.toNat ≤ 122
  · have ht := toUpper_toNat c
    rw [if_pos h] at ht
    apply toUpper_eq_of_not
    omega
  · rw [toUpper_eq_of_not h, toUpper_eq_of_not h]

/-! ### CaseNormalizer: toPascalCase (src/utils/path-utils.ts lines 72-84)

The source is a chain of five regexp replacements:
1. remove the bracket characters,
2. replace every hyphen or underscore by a space,
3. globally replace a word character at start-of-string or after a whitespace
   character by its upper-case form, consuming the whitespace with the match,
4. remove all remaining whitespace,
5. upper-case the first character (the regexp dot does not match line terminators).
Each step is embedded below as a recursion over the character list. -/

/-- Step 1 of toPascalCase: remove the two bracket characters. -/
def stripBracketsL (l : List Char) : List Char :=
  l.filter (fun c => !(c == '[' || c == ']'))

/-- Step 2 of toPascalCase: replace hyphens and underscores by spaces. -/
def sepsToSpacesL (l : List Char) : List Char :=
  l.map (fun c => if c == '-' || c == '_' then ' ' else c)

/-- Scanning part of step 3: a whitespace character followed by a word character is
replaced by the upper-cased word character (the match consumes both), and scanning
resumes after the match; any other character is kept and scanning advances by one. -/
def capAfterSpace : List Char → List Char
  | [] => []
  | [c] => [c]
  | c :: d :: rest =>
    if jsIsSpace c && jsIsWord d then Char.toUpper d :: capAfterSpace rest
    else c :: capAfterSpace (d :: rest)

/-- Step 3 of toPascalCase: the start-of-string anchor can additionally match a word
character at position zero; everywhere else only the whitespace alternative applies. -/
def capWords (l : List Char) : List Char :=
  match l with
  | [] => []
  | c :: rest =>
    if jsIsWord c then Char.toUpper c :: capAfterSpace rest
    else capAfterSpace (c :: rest)

/-- Step 4 of toPascalCase: remove every remaining whitespace character. -/
def removeSpacesL (l : List Char) : List Char :=
  l.filter (fun c => !jsIsSpace c)

/-- Step 5 of toPascalCase: upper-case the first character; the regexp dot does not
match a line terminator, in which case nothing is replaced. -/
def upperFirstL : List Char → List Char
  | [] => []
  | c :: rest => if jsIsLineTerm c then c :: rest else Char.toUpper c :: rest

/-- Embedding of toPascalCase (src/utils/path-utils.ts lines 72-84). -/
def toPascalCase (str : String) : String :=
  String.mk (upperFirstL (removeSpacesL (capWords (sepsToSpacesL (stripBracketsL str.data)))))

/-! ### PathSegmenter: extractPathInfo (src/utils/path-utils.ts lines 35-59) -/

/-- The default skip set (src/utils/path-utils.ts line 7). -/
def DEFAULT_SKIP_DIRS : List String :=
  ["components", "[id]", "queries", "mutations", "fragments", "subscriptions",
   "graphql", "gql", "src"]

/-- Configuration options of the path utilities (PathOptions). -/
structure PathOptions where
  skipDirs : Option (List String) := none

/-- The two raw tokens selected for prefix derivation (PathInfo). -/
structure PathInfo where
  dirName : String
  fileName : String

/-- The two fields of the result of Node path.parse that the source reads.  The
source also reads parsed.name, which differs from base only by a trailing
dot-extension, so its first dot-segment -- all the source uses -- coincides with
the first dot-segment of base. -/
structure ParsedPath where
  dir : String
  base : String

/-- Model of Node path.parse (posix): base is the maximal run of non-separator
characters before the trailing separators, dir is everything before the separator
preceding base (the root separator alone when the path is absolute with a
single-segment body, empty for a bare relative file name). -/
def parsePath (p : String) : ParsedPath :=
  match p.data with
  | [] => ⟨"", ""⟩
  | c :: rest =>
    let isAbs := c == '/'
    let body := if isAbs then rest else c :: rest
    let revNoTrail := body.reverse.dropWhile (fun d => d == '/')
    match revNoTrail with
    | [] => ⟨if isAbs then "/" else "", ""⟩
    | _ :: _ =>
      let base := (revNoTrail.takeWhile (fun d => !(d == '/'))).reverse
      let afterBase := revNoTrail.dropWhile (fun d => !(d == '/'))
      match afterBase with
      | [] => ⟨if isAbs then "/" else "", String.mk base⟩
      | _ :: beforeRev =>
        ⟨String.mk ((if isAbs then ['/'] else []) ++ beforeRev.reverse), String.mk base⟩

/-- Splitting on a separator character, with the semantics of both the JavaScript
String.prototype.split for a one-character separator and Node path splitting:
the empty string yields one empty field. -/
def splitOnChar (sep : Char) (l : List Char) : List (List Char) :=
  match l with
  | [] => [[]]
  | c :: rest =>
    match splitOnChar sep rest with
    | [] => [[]]
    | h :: t => if c == sep then [] :: h :: t else (c :: h) :: t

/-- String form of stripBracketsL, the replacement of the bracket characters by
nothing that extractPathInfo applies to both candidates. -/
def stripBrackets (s : String) : String :=
  String.mk (stripBracketsL s.data)

/-- Embedding of extractPathInfo (src/utils/path-utils.ts lines 35-59).  The path
separator is the posix one.  The skip lookup replaces the last directory segment by
the immediately preceding one exactly when the last segment is a literal member of
the effective skip set and more than one segment exists. -/
def extractPathInfo (physicalFilename : String) (options : PathOptions) : PathInfo :=
  let skipDirs := options.skipDirs.getD DEFAULT_SKIP_DIRS
  let parsed := parsePath physicalFilename
  let dirs := (splitOnChar '/' parsed.dir.data).map String.mk
  let lastSeg := dirs.getLastD ""
  let dirName0 :=
    if skipDirs.contains lastSeg && decide (1 < dirs.length) then
      dirs.getD (dirs.length - 2) ""
    else lastSeg
  let dirName := stripBrackets dirName0
  let fileName := stripBrackets (String.mk ((splitOnChar '.' parsed.base.data).headD []))
  ⟨dirName, fileName⟩

/-! ### OverlapDetector and PrefixCalculator (src/utils/path-utils.ts lines 100-198) -/

/-- Model of JavaScript String.prototype.toLowerCase on the range the plugin
manipulates (Char.toLower agrees with it on basic latin). -/
def jsToLower (s : String) : String :=
  String.mk (s.data.map Char.toLower)

/-- Model of JavaScript String.prototype.endsWith. -/
def jsEndsWith (s t : String) : Bool :=
  t.data.isSuffixOf s.data

/-- Removal of the last n characters, as the regexp replacements of stripSuffix do. -/
def jsDropRight (s : String) (n : Nat) : String :=
  String.mk (s.data.take (s.data.length - n))

/-- Is need a contiguous substring of hay, by a left-to-right scan: the model of
JavaScript String.prototype.includes. -/
def containsSub (hay need : List Char) : Bool :=
  need.isPrefixOf hay ||
    match hay with
    | [] => false
    | _ :: t => containsSub t need

/-- Model of JavaScript String.prototype.includes. -/
def jsIncludes (s sub : String) : Bool :=
  containsSub s.data sub.data

/-- The suffix stripping of hasSignificantOverlap (src/utils/path-utils.ts lines
130-131): first the regexp (s|es|ies)$ -- whose leftmost-match semantics removes
the longest of the three alternatives present, since the earlier starting position
wins -- then list$, then data$. -/
def stripSuffix (str : String) : String :=
  let s1 :=
    if jsEndsWith str "ies" then jsDropRight str 3
    else if jsEndsWith str "es" then jsDropRight str 2
    else if jsEndsWith str "s" then jsDropRight str 1
    else str
  let s2 := if jsEndsWith s1 "list" then jsDropRight s1 4 else s1
  if jsEndsWith s2 "data" then jsDropRight s2 4 else s2

/-- Embedding of hasSignificantOverlap (src/utils/path-utils.ts lines 125-142). -/
def hasSignificantOverlap (typeName fileName : String) : Bool :=
  let normalizedType := jsToLower typeName
  let normalizedFile := jsToLower fileName
  let strippedType := stripSuffix normalizedType
  let strippedFile := stripSuffix normalizedFile
  jsIncludes strippedType strippedFile ||
    jsIncludes strippedFile strippedType ||
    strippedType == strippedFile

/-- Embedding of calculatePrefix (src/utils/path-utils.ts lines 100-115). -/
def calculatePrefix (physicalFilename : String) (options : PathOptions) : String :=
  let info := extractPathInfo physicalFilename options
  let pascalDir := toPascalCase info.dirName
  let pascalFile := toPascalCase info.fileName
  if pascalDir == pascalFile then pascalDir
  else pascalDir ++ pascalFile

/-- Embedding of calculatePrefixWithTypeName (src/utils/path-utils.ts lines
160-198).  The truthiness test on pascalDir is the test for the non-empty string;
both meaningfulness checks consult DEFAULT_SKIP_DIRS on the lower-cased directory
candidate, regardless of the options. -/
def calculatePrefixWithTypeName (physicalFilename typeName : String)
    (options : PathOptions) : String :=
  let info := extractPathInfo physicalFilename options
  let pascalDir := toPascalCase info.dirName
  let pascalFile := toPascalCase info.fileName
  if hasSignificantOverlap typeName info.fileName then
    if pascalDir == pascalFile then ""
    else if !(pascalDir == "") && !(DEFAULT_SKIP_DIRS.contains (jsToLower info.dirName)) then
      pascalDir
    else ""
  else if pascalDir == pascalFile then pascalDir
  else if pascalDir == "" || DEFAULT_SKIP_DIRS.contains (jsToLower info.dirName) then
    pascalFile
  else pascalDir ++ pascalFile

/-! ### NameValidator and NameGenerator (src/utils/naming-utils.ts lines 70-101) -/

/-- Embedding of capitalizeTypeName (src/utils/naming-utils.ts lines 70-73). -/
def capitalizeTypeName (typeName : String) : String :=
  match typeName.data with
  | [] => ""
  | c :: rest => String.mk (Char.toUpper c :: rest)

/-- Model of JavaScript String.prototype.startsWith. -/
def jsStartsWith (s pre : String) : Bool :=
  pre.data.isPrefixOf s.data

/-- Embedding of isValidName (src/utils/naming-utils.ts lines 83-90); the source
names the second argument expectedPrefix. -/
def isValidName (actualName expectedPfx typeName : String) : Bool :=
  let expectedName := expectedPfx ++ capitalizeTypeName typeName
  jsStartsWith actualName expectedName

/-- Embedding of generateExpectedName (src/utils/naming-utils.ts lines 99-101). -/
def generateExpectedName (pfx typeName : String) : String :=
  pfx ++ capitalizeTypeName typeName

/-! ### TypeNameResolver (src/utils/naming-utils.ts lines 9-62)

The schema is an opaque capability: per operation kind an optional root type, a
root type holds fields looked up by name, a field exposes a type reference, and a
type reference is either a wrapper around another reference or terminal with an
optional name -- exactly the shape the source reads through its structural casts. -/

/-- A GraphQL type reference: a chain of wrappers ending in a terminal reference
that may or may not carry a name. -/
inductive GraphQLType where
  | wrapper (ofType : GraphQLType)
  | named (name? : Option String)
deriving DecidableEq

/-- A field of a root type; the source guards against an absent declared type. -/
structure GraphQLField where
  type? : Option GraphQLType
deriving DecidableEq

/-- A root object type: its fields, looked up by name. -/
structure GraphQLObjectType where
  fields : List (String × GraphQLField)

/-- The opaque schema capability: an optional root type per operation kind. -/
structure GraphQLSchema where
  queryType : Option GraphQLObjectType
  mutationType : Option GraphQLObjectType
  subscriptionType : Option GraphQLObjectType

/-- The three operation kinds. -/
inductive OperationKind where
  | query
  | mutation
  | subscription

/-- Embedding of unwrapType (src/utils/naming-utils.ts lines 9-19): follow ofType
references until a reference with no further wrapping is reached. -/
def unwrapType : GraphQLType → GraphQLType
  | .wrapper t => unwrapType t
  | .named n => .named n

/-- The switch over the operation kind (src/utils/naming-utils.ts lines 36-46). -/
def rootTypeFor (schema : GraphQLSchema) : OperationKind → Option GraphQLObjectType
  | .query => schema.queryType
  | .mutation => schema.mutationType
  | .subscription => schema.subscriptionType

/-- Embedding of getOperationTypeName (src/utils/naming-utils.ts lines 29-62),
with the early returns of the source become nested matches. -/
def getOperationTypeName (schema : GraphQLSchema) (operationType : OperationKind)
    (firstFieldName : String) : Option String :=
  match rootTypeFor schema operationType with
  | none => none
  | some rootType =>
    match rootType.fields.lookup firstFieldName with
    | none => none
    | some field =>
      match field.type? with
      | none => none
      | some t =>
        match unwrapType t with
        | .named n => n
        | .wrapper _ => none

/-! ### Helper lemmas -/

theorem isPrefixOf_append_self (l r : List Char) : l.isPrefixOf (l ++ r) = true := by
  simp [List.isPrefixOf_iff_prefix]

theorem containsSub_nil (l : List Char) : containsSub l [] = true := by
  rw [containsSub.eq_def]
  simp

/-! ### Claims about NameValidator / NameGenerator -/

/-- C2: isValidName(actualName, prefix, typeName) is true iff actualName begins with
generateExpectedName(prefix, typeName), which is the prefix followed by the
capitalized type name; consequently every extension of the expected name by any
suffix is accepted, and every name not beginning with the expected name is
rejected. -/
theorem isValidName_iff_startsWith_expected (actualName pfx typeName : String) :
    (isValidName actualName pfx typeName = true ↔
      jsStartsWith actualName (generateExpectedName pfx typeName) = true) ∧
    generateExpectedName pfx typeName = pfx ++ capitalizeTypeName typeName ∧
    (∀ suf : String,
      isValidName (generateExpectedName pfx typeName ++ suf) pfx typeName = true) ∧
    (∀ x : String, jsStartsWith x (generateExpectedName pfx typeName) = false →
      isValidName x pfx typeName = false) := by
  refine ⟨Iff.rfl, rfl, ?_, fun x h => h⟩
  intro suf
  show jsStartsWith (generateExpectedName pfx typeName ++ suf)
      (pfx ++ capitalizeTypeName typeName) = true
  unfold jsStartsWith generateExpectedName
  rw [String.data_append]
  exact isPrefixOf_append_self _ _

/-- Witness for C2 at concrete inputs. -/
theorem isValidName_iff_startsWith_expected_witness :
    (isValidName "UsersUserX" "Users" "user" = true ↔
      jsStartsWith "UsersUserX" (generateExpectedName "Users" "user") = true) ∧
    generateExpectedName "Users" "user" = "Users" ++ capitalizeTypeName "user" ∧
    isValidName (generateExpectedName "Users" "user" ++ "X") "Users" "user" = true ∧
    isValidName "CreateUser" "Users" "user" = false := by
  have h := isValidName_iff_startsWith_expected "UsersUserX" "Users" "user"
  exact ⟨h.1, h.2.1, h.2.2.1 "X", h.2.2.2 "CreateUser" (by decide)⟩

/-! ### Claims about OverlapDetector -/

/-- C7: hasSignificantOverlap is commutative, since its decision is the symmetric
stripped-containment test. -/
theorem hasSignificantOverlap_comm (typeName fileName : String) :
    hasSignificantOverlap typeName fileName = hasSignificantOverlap fileName typeName := by
  simp only [hasSignificantOverlap]
  by_cases h : stripSuffix (jsToLower typeName) = stripSuffix (jsToLower fileName)
  · rw [h]
  · have h1 : (stripSuffix (jsToLower typeName) == stripSuffix (jsToLower fileName)) = false :=
      beq_eq_false_iff_ne.mpr h
    have h2 : (stripSuffix (jsToLower fileName) == stripSuffix (jsToLower typeName)) = false :=
      beq_eq_false_iff_ne.mpr (fun e => h e.symm)
    rw [h1, h2]
    cases hab : jsIncludes (stripSuffix (jsToLower typeName)) (stripSuffix (jsToLower fileName)) <;>
      cases hba : jsIncludes (stripSuffix (jsToLower fileName)) (stripSuffix (jsToLower typeName)) <;>
      rfl

/-- C10: whenever the case-folded, suffix-stripped form of either argument is
empty, hasSignificantOverlap returns true, because every string contains the
empty string as a substring. -/
theorem hasSignificantOverlap_of_stripped_empty (typeName fileName : String) :
    (stripSuffix (jsToLower fileName) = "" → hasSignificantOverlap typeName fileName = true) ∧
    (stripSuffix (jsToLower typeName) = "" → hasSignificantOverlap typeName fileName = true) := by
  have hnil : ("" : String).data = [] := rfl
  constructor
  · intro h
    simp only [hasSignificantOverlap, h]
    simp [jsIncludes, hnil, containsSub_nil]
  · intro h
    simp only [hasSignificantOverlap, h]
    simp [jsIncludes, hnil, containsSub_nil]

/-- Witness for C10 at concrete inputs whose stripped forms are empty. -/
theorem hasSignificantOverlap_of_stripped_empty_witness :
    hasSignificantOverlap "Anything" "list" = true ∧
    hasSignificantOverlap "data" "Whatever" = true :=
  ⟨(hasSignificantOverlap_of_stripped_empty "Anything" "list").1 (by decide),
   (hasSignificantOverlap_of_stripped_empty "data" "Whatever").2 (by decide)⟩

/-! ### Claims about TypeNameResolver -/

/-- The chain of successive type references followed by the unwrap loop. -/
def typeChain : GraphQLType → List GraphQLType
  | .wrapper t => GraphQLType.wrapper t :: typeChain t
  | .named n => [GraphQLType.named n]

/-- Does a reference carry further wrapping. -/
def isWrapped : GraphQLType → Bool
  | .wrapper _ => true
  | .named _ => false

/-- C9: on every finite, acyclic chain of wrapper references -- which is every
value of the inductive type of references -- unwrapType is total and returns the
unique reference of the chain that has no further wrapping; the embedding is pure,
so no input structure is mutated. -/
theorem unwrapType_first_unwrapped (t : GraphQLType) :
    isWrapped (unwrapType t) = false ∧
    unwrapType t ∈ typeChain t ∧
    (∀ u ∈ typeChain t, isWrapped u = false → u = unwrapType t) := by
  induction t with
  | wrapper t ih =>
    refine ⟨ih.1, ?_, ?_⟩
    · show unwrapType t ∈ typeChain (GraphQLType.wrapper t)
      rw [typeChain]
      exact List.mem_cons_of_mem _ ih.2.1
    · intro u hu hw
      rw [typeChain] at hu
      rcases List.mem_cons.mp hu with h | h
      · rw [h] at hw
        simp [isWrapped] at hw
      · exact ih.2.2 u h hw
  | named n =>
    refine ⟨rfl, ?_, ?_⟩
    · rw [typeChain, unwrapType]
      exact List.mem_singleton_self _
    · intro u hu _
      rw [typeChain] at hu
      rw [List.mem_singleton.mp hu, unwrapType]

/-- Witness for C9 at a concrete one-layer wrapped reference. -/
theorem unwrapType_first_unwrapped_witness :
    isWrapped (unwrapType (GraphQLType.wrapper (GraphQLType.named (some "User")))) = false ∧
    GraphQLType.named (some "User") =
      unwrapType (GraphQLType.wrapper (GraphQLType.named (some "User"))) := by
  have h := unwrapType_first_unwrapped (GraphQLType.wrapper (GraphQLType.named (some "User")))
  exact ⟨h.1, h.2.2 (GraphQLType.named (some "User")) (by decide) (by decide)⟩

/-- The terminal named type reached from a field's declared type, when one exists. -/
def fieldTypeName (field : GraphQLField) : Option String :=
  field.type?.bind (fun t =>
    match unwrapType t with
    | .named n => n
    | .wrapper _ => none)

/-- C3: getOperationTypeName signals absence exactly when the root type for the
kind does not exist, the field is not declared among the root type's fields, or
the field's type chain does not end in a reference carrying a name; in every other
case it returns the name of the terminal named type, and being a total function it
never throws. -/
theorem getOperationTypeName_none_iff (schema : GraphQLSchema) (kind : OperationKind)
    (firstFieldName : String) :
    (getOperationTypeName schema kind firstFieldName = none ↔
      rootTypeFor schema kind = none ∨
      ∃ rootType, rootTypeFor schema kind = some rootType ∧
        (rootType.fields.lookup firstFieldName = none ∨
         ∃ field, rootType.fields.lookup firstFieldName = some field ∧
           fieldTypeName field = none)) ∧
    (∀ rootType field nm, rootTypeFor schema kind = some rootType →
      rootType.fields.lookup firstFieldName = some field →
      fieldTypeName field = some nm →
      getOperationTypeName schema kind firstFieldName = some nm) := by
  have heq : getOperationTypeName schema kind firstFieldName =
      (rootTypeFor schema kind).bind
        (fun rt => (rt.fields.lookup firstFieldName).bind fieldTypeName) := by
    cases hr : rootTypeFor schema kind with
    | none => simp only [getOperationTypeName, hr, Option.none_bind]
    | some rt =>
      cases hf : rt.fields.lookup firstFieldName with
      | none => simp only [getOperationTypeName, hr, hf, Option.some_bind, Option.none_bind]
      | some f =>
        cases ht : f.type? with
        | none =>
          simp only [getOperationTypeName, fieldTypeName, hr, hf, ht, Option.some_bind,
            Option.none_bind]
        | some t =>
          simp only [getOperationTypeName, fieldTypeName, hr, hf, ht, Option.some_bind]
  constructor
  · rw [heq]
    cases hr : rootTypeFor schema kind with
    | none => exact ⟨fun _ => Or.inl rfl, fun _ => rfl⟩
    | some rt =>
      cases hf : rt.fields.lookup firstFieldName with
      | none =>
        simp only [hf, Option.some_bind, Option.none_bind]
        exact ⟨fun _ => Or.inr ⟨rt, rfl, Or.inl hf⟩, fun _ => trivial⟩
      | some f =>
        cases hg : fieldTypeName f with
        | none =>
          simp only [hf, hg, Option.some_bind]
          exact ⟨fun _ => Or.inr ⟨rt, rfl, Or.inr ⟨f, hf, hg⟩⟩, fun _ => trivial⟩
        | some nm =>
          simp only [hf, hg, Option.some_bind]
          constructor
          · intro h
            exact Option.noConfusion h
          · rintro (h | ⟨rt2, hrt2, hcase⟩)
            · exact Option.noConfusion h
            · obtain rfl : rt2 = rt := (Option.some_inj.mp hrt2).symm
              rcases hcase with h | ⟨f2, hf2, hg2⟩
              · rw [hf] at h
                exact Option.noConfusion h
              · rw [hf] at hf2
                obtain rfl : f2 = f := (Option.some_inj.mp hf2).symm
                rw [hg] at hg2
                exact Option.noConfusion hg2
  · intro rt f nm hr hf hnm
    cases ht : f.type? with
    | none => simp [fieldTypeName, ht] at hnm
    | some t =>
      simp only [fieldTypeName, ht, Option.some_bind] at hnm
      simp only [getOperationTypeName, hr, hf, ht]
      exact hnm

/-- Witness for C3: Scenario 5, a query root with field users wrapping User. -/
theorem getOperationTypeName_none_iff_witness :
    getOperationTypeName
      ⟨some ⟨[("users", ⟨some (.wrapper (.named (some "User")))⟩)]⟩, none, none⟩
      .query "users" = some "User" := by
  have h := getOperationTypeName_none_iff
    ⟨some ⟨[("users", ⟨some (.wrapper (.named (some "User")))⟩)]⟩, none, none⟩
    .query "users"
  exact h.2 ⟨[("users", ⟨some (.wrapper (.named (some "User")))⟩)]⟩
    ⟨some (.wrapper (.named (some "User")))⟩ "User" rfl rfl rfl

/-! ### Claims about CaseNormalizer -/

/-- A character that none of the bracket-stripping and separator-replacing steps
of toPascalCase acts on. -/
def noBadChar (c : Char) : Prop :=
  c ≠ '[' ∧ c ≠ ']' ∧ c ≠ '-' ∧ c ≠ '_'

theorem toNat_ne_imp_ne {c d : Char} (h : c.toNat ≠ d.toNat) : c ≠ d :=
  fun he => h (congrArg Char.toNat he)

instance (c : Char) : Decidable (noBadChar c) := by
  unfold noBadChar
  infer_instance

theorem noBadChar_of_range {c : Char} (h1 : 65 ≤ c.toNat) (h2 : c.toNat ≤ 90) :
    noBadChar c := by
  have e1 : ('[').toNat = 91 := rfl
  have e2 : (']').toNat = 93 := rfl
  have e3 : ('-').toNat = 45 := rfl
  have e4 : ('_').toNat = 95 := rfl
  exact ⟨toNat_ne_imp_ne (by omega), toNat_ne_imp_ne (by omega),
    toNat_ne_imp_ne (by omega), toNat_ne_imp_ne (by omega)⟩

theorem noBadChar_of_lower {c : Char} (h1 : 97 ≤ c.toNat) (h2 : c.toNat ≤ 122) :
    noBadChar c := by
  have e1 : ('[').toNat = 91 := rfl
  have e2 : (']').toNat = 93 := rfl
  have e3 : ('-').toNat = 45 := rfl
  have e4 : ('_').toNat = 95 := rfl
  exact ⟨toNat_ne_imp_ne (by omega), toNat_ne_imp_ne (by omega),
    toNat_ne_imp_ne (by omega), toNat_ne_imp_ne (by omega)⟩

theorem jsIsSpace_false_of_range {c : Char} (h1 : 65 ≤ c.toNat) (h2 : c.toNat ≤ 90) :
    jsIsSpace c = false := by
  unfold jsIsSpace
  exact decide_eq_false (by omega)

theorem jsIsSpace_false_of_lower {c : Char} (h1 : 97 ≤ c.toNat) (h2 : c.toNat ≤ 122) :
    jsIsSpace c = false := by
  unfold jsIsSpace
  exact decide_eq_false (by omega)

theorem jsIsWord_of_lower {c : Char} (h1 : 97 ≤ c.toNat) (h2 : c.toNat ≤ 122) :
    jsIsWord c = true := by
  unfold jsIsWord
  exact decide_eq_true (by omega)

theorem toUpper_noBad {c : Char} (h : noBadChar c) : noBadChar (Char.toUpper c) := by
  rcases toUpper_cases c with he | ⟨h1, h2⟩
  · rw [he]
    exact h
  · exact noBadChar_of_range h1 h2

theorem toUpper_nospace {c : Char} (h : jsIsSpace c = false) :
    jsIsSpace (Char.toUpper c) = false := by
  rcases toUpper_cases c with he | ⟨h1, h2⟩
  · rw [he]
    exact h
  · exact jsIsSpace_false_of_range h1 h2

theorem lineTerm_false_of_nospace {c : Char} (h : jsIsSpace c = false) :
    jsIsLineTerm c = false := by
  unfold jsIsSpace at h
  have hp := of_decide_eq_false h
  unfold jsIsLineTerm
  exact decide_eq_false (by omega)

/-- Every character of capAfterSpace l is a character of l or the upper-case form
of one. -/
theorem capAfterSpace_chars : ∀ (l : List Char), ∀ c ∈ capAfterSpace l,
    ∃ d, d ∈ l ∧ (c = d ∨ c = Char.toUpper d)
  | [] => by
    intro c hc
    simp [capAfterSpace] at hc
  | [a] => by
    intro c hc
    simp [capAfterSpace] at hc
    exact ⟨a, by simp, Or.inl hc⟩
  | a :: b :: rest => by
    intro c hc
    rw [capAfterSpace] at hc
    by_cases h : (jsIsSpace a && jsIsWord b) = true
    · rw [if_pos h] at hc
      rcases List.mem_cons.mp hc with h1 | h1
      · exact ⟨b, by simp, Or.inr h1⟩
      · obtain ⟨d, hd, hcd⟩ := capAfterSpace_chars rest c h1
        exact ⟨d, by simp [hd], hcd⟩
    · rw [if_neg h] at hc
      rcases List.mem_cons.mp hc with h1 | h1
      · exact ⟨a, by simp, Or.inl h1⟩
      · obtain ⟨d, hd, hcd⟩ := capAfterSpace_chars (b :: rest) c h1
        exact ⟨d, List.mem_cons_of_mem a hd, hcd⟩

/-- On a whitespace-free list the whitespace-scanning replacement does nothing. -/
theorem capAfterSpace_id : ∀ (l : List Char), (∀ c ∈ l, jsIsSpace c = false) →
    capAfterSpace l = l
  | [] => fun _ => rfl
  | [a] => fun _ => rfl
  | a :: b :: rest => fun h => by
    have ha : jsIsSpace a = false := h a (by simp)
    have htail := capAfterSpace_id (b :: rest) (fun c hc => h c (List.mem_cons_of_mem a hc))
    rw [capAfterSpace, if_neg (by simp [ha]), htail]

/-- Every character of capWords l is a character of l or the upper-case form of one. -/
theorem capWords_chars (l : List Char) : ∀ c ∈ capWords l,
    ∃ d, d ∈ l ∧ (c = d ∨ c = Char.toUpper d) := by
  match l with
  | [] =>
    intro c hc
    simp [capWords] at hc
  | a :: rest =>
    intro c hc
    simp only [capWords] at hc
    by_cases h : jsIsWord a = true
    · rw [if_pos h] at hc
      rcases List.mem_cons.mp hc with h1 | h1
      · exact ⟨a, by simp, Or.inr h1⟩
      · obtain ⟨d, hd, hcd⟩ := capAfterSpace_chars rest c h1
        exact ⟨d, List.mem_cons_of_mem a hd, hcd⟩
    · rw [if_neg h] at hc
      exact capAfterSpace_chars (a :: rest) c hc

/-- On a whitespace-free list whose head is fixed by toUpper, capWords does nothing. -/
theorem capWords_id (l : List Char) (hsp : ∀ c ∈ l, jsIsSpace c = false)
    (hhead : ∀ c r, l = c :: r → Char.toUpper c = c) : capWords l = l := by
  match l with
  | [] => rfl
  | a :: rest =>
    have ha := hhead a rest rfl
    have hrest : ∀ c ∈ rest, jsIsSpace c = false :=
      fun c hc => hsp c (List.mem_cons_of_mem a hc)
    simp only [capWords]
    by_cases h : jsIsWord a = true
    · rw [if_pos h, ha, capAfterSpace_id rest hrest]
    · rw [if_neg h, capAfterSpace_id (a :: rest) hsp]

theorem map_id_of_fixed {l : List Char} {f : Char → Char} (h : ∀ a ∈ l, f a = a) :
    l.map f = l := by
  induction l with
  | nil => rfl
  | cons a t ih =>
    rw [List.map_cons, h a (by simp), ih (fun b hb => h b (by simp [hb]))]

/-- A list of characters untouched by every step of the toPascalCase pipeline is a
fixed point of the pipeline. -/
theorem pipeline_fixed (l : List Char)
    (hsp : ∀ c ∈ l, jsIsSpace c = false)
    (hbad : ∀ c ∈ l, noBadChar c)
    (hhead : ∀ c r, l = c :: r → Char.toUpper c = c) :
    upperFirstL (removeSpacesL (capWords (sepsToSpacesL (stripBracketsL l)))) = l := by
  have h1 : stripBracketsL l = l := by
    rw [stripBracketsL, List.filter_eq_self]
    intro a ha
    have hb := hbad a ha
    simp [beq_eq_false_iff_ne.mpr hb.1, beq_eq_false_iff_ne.mpr hb.2.1]
  have h2 : sepsToSpacesL l = l := by
    rw [sepsToSpacesL]
    apply map_id_of_fixed
    intro a ha
    have hb := hbad a ha
    rw [if_neg]
    simp [beq_eq_false_iff_ne.mpr hb.2.2.1, beq_eq_false_iff_ne.mpr hb.2.2.2]
  have h3 : capWords l = l := capWords_id l hsp hhead
  have h4 : removeSpacesL l = l := by
    rw [removeSpacesL, List.filter_eq_self]
    intro a ha
    simp [hsp a ha]
  rw [h1, h2, h3, h4]
  cases l with
  | nil => rfl
  | cons a r =>
    have ha := hsp a (by simp)
    rw [upperFirstL, if_neg (by simp [lineTerm_false_of_nospace ha]), hhead a r rfl]

/-- Every character the pipeline emits is whitespace-free and untouched by the
bracket and separator steps, and the head of the output is fixed by toUpper. -/
theorem pipeline_clean (l : List Char) :
    (∀ c ∈ upperFirstL (removeSpacesL (capWords (sepsToSpacesL (stripBracketsL l)))),
      jsIsSpace c = false ∧ noBadChar c) ∧
    (∀ c r,
      upperFirstL (removeSpacesL (capWords (sepsToSpacesL (stripBracketsL l)))) = c :: r →
      Char.toUpper c = c) := by
  have hw : ∀ c ∈ sepsToSpacesL (stripBracketsL l), noBadChar c := by
    intro c hc
    rw [sepsToSpacesL] at hc
    obtain ⟨d, hd, hfd⟩ := List.mem_map.mp hc
    by_cases h : (d == '-' || d == '_') = true
    · rw [if_pos h] at hfd
      rw [← hfd]
      exact ⟨by decide, by decide, by decide, by decide⟩
    · rw [if_neg h] at hfd
      rw [← hfd]
      rw [stripBracketsL] at hd
      have hp := List.of_mem_filter hd
      simp only [Bool.not_eq_eq_eq_not, Bool.not_true, Bool.or_eq_false_iff,
        beq_eq_false_iff_ne] at hp
      simp only [Bool.or_eq_true, beq_iff_eq, not_or] at h
      exact ⟨hp.1, hp.2, h.1, h.2⟩
  have hcap : ∀ c ∈ capWords (sepsToSpacesL (stripBracketsL l)), noBadChar c := by
    intro c hc
    obtain ⟨d, hd, hcd⟩ := capWords_chars _ c hc
    rcases hcd with h | h
    · rw [h]
      exact hw d hd
    · rw [h]
      exact toUpper_noBad (hw d hd)
  have hz_sp : ∀ c ∈ removeSpacesL (capWords (sepsToSpacesL (stripBracketsL l))),
      jsIsSpace c = false := by
    intro c hc
    rw [removeSpacesL] at hc
    have := (List.mem_filter.mp hc).2
    simpa using this
  have hz_bad : ∀ c ∈ removeSpacesL (capWords (sepsToSpacesL (stripBracketsL l))),
      noBadChar c := by
    intro c hc
    rw [removeSpacesL] at hc
    exact hcap c (List.mem_filter.mp hc).1
  cases hz : removeSpacesL (capWords (sepsToSpacesL (stripBracketsL l))) with
  | nil =>
    constructor
    · intro c hc
      simp [upperFirstL] at hc
    · intro c r hcr
      simp [upperFirstL] at hcr
  | cons d zr =>
    have hd_sp : jsIsSpace d = false := hz_sp d (by rw [hz]; simp)
    have hterm : jsIsLineTerm d = false := lineTerm_false_of_nospace hd_sp
    rw [upperFirstL, if_neg (by simp [hterm])]
    constructor
    · intro c hc
      rcases List.mem_cons.mp hc with rfl | hcr
      · exact ⟨toUpper_nospace hd_sp, toUpper_noBad (hz_bad d (by rw [hz]; simp))⟩
      · have hcz : c ∈ removeSpacesL (capWords (sepsToSpacesL (stripBracketsL l))) := by
          rw [hz]
          simp [hcr]
        exact ⟨hz_sp c hcz, hz_bad c hcz⟩
    · intro c r hcr
      injection hcr with h1 _
      rw [← h1]
      exact toUpper_idem d

/-- A string all of whose characters are untouched by the pipeline steps and whose
first character is fixed by toUpper is a fixed point of toPascalCase. -/
theorem toPascalCase_of_clean (s : String)
    (hsp : ∀ c ∈ s.data, jsIsSpace c = false)
    (hbad : ∀ c ∈ s.data, noBadChar c)
    (hhead : ∀ c r, s.data = c :: r → Char.toUpper c = c) :
    toPascalCase s = s := by
  have h := pipeline_fixed s.data hsp hbad hhead
  show String.mk (upperFirstL (removeSpacesL (capWords (sepsToSpacesL
    (stripBracketsL s.data))))) = s
  rw [h]

/-- C6: toPascalCase is idempotent; it is a no-op on an already compact
capitalized input (no brackets, separators or whitespace, and a first character
fixed by upper-casing); and on a fully lowercase separator-free input it performs
exactly the single capitalization of the first character. -/
theorem toPascalCase_idempotent_spec (s : String) :
    toPascalCase (toPascalCase s) = toPascalCase s ∧
    ((∀ c ∈ s.data, jsIsSpace c = false ∧ noBadChar c) →
      (∀ c r, s.data = c :: r → Char.toUpper c = c) →
      toPascalCase s = s) ∧
    ((∀ c ∈ s.data, 97 ≤ c.toNat ∧ c.toNat ≤ 122) →
      ∀ c r, s.data = c :: r → toPascalCase s = String.mk (Char.toUpper c :: r)) := by
  refine ⟨?_, ?_, ?_⟩
  · have h := pipeline_clean s.data
    exact toPascalCase_of_clean (toPascalCase s)
      (fun c hc => (h.1 c hc).1) (fun c hc => (h.1 c hc).2) h.2
  · intro hclean hhead
    exact toPascalCase_of_clean s
      (fun c hc => (hclean c hc).1) (fun c hc => (hclean c hc).2) hhead
  · intro hlow c r hd
    have hsp_cr : ∀ x ∈ (c :: r), jsIsSpace x = false := by
      intro x hx
      have h := hlow x (by rw [hd]; exact hx)
      exact jsIsSpace_false_of_lower h.1 h.2
    have hbad_cr : ∀ x ∈ (c :: r), noBadChar x := by
      intro x hx
      have h := hlow x (by rw [hd]; exact hx)
      exact noBadChar_of_lower h.1 h.2
    have hcl := hlow c (by rw [hd]; simp)
    have h1 : stripBracketsL (c :: r) = c :: r := by
      rw [stripBracketsL, List.filter_eq_self]
      intro a ha
      have hb := hbad_cr a ha
      simp [beq_eq_false_iff_ne.mpr hb.1, beq_eq_false_iff_ne.mpr hb.2.1]
    have h2 : sepsToSpacesL (c :: r) = c :: r := by
      rw [sepsToSpacesL]
      apply map_id_of_fixed
      intro a ha
      have hb := hbad_cr a ha
      rw [if_neg]
      simp [beq_eq_false_iff_ne.mpr hb.2.2.1, beq_eq_false_iff_ne.mpr hb.2.2.2]
    have h3 : capWords (c :: r) = Char.toUpper c :: r := by
      simp only [capWords]
      rw [if_pos (jsIsWord_of_lower hcl.1 hcl.2),
        capAfterSpace_id r (fun x hx => hsp_cr x (by simp [hx]))]
    have hupsp : jsIsSpace (Char.toUpper c) = false :=
      toUpper_nospace (jsIsSpace_false_of_lower hcl.1 hcl.2)
    have h4 : removeSpacesL (Char.toUpper c :: r) = Char.toUpper c :: r := by
      rw [removeSpacesL, List.filter_eq_self]
      intro a ha
      rcases List.mem_cons.mp ha with rfl | har
      · simp [hupsp]
      · simp [hsp_cr a (by simp [har])]
    have h5 : upperFirstL (Char.toUpper c :: r) = Char.toUpper c :: r := by
      rw [upperFirstL, if_neg (by simp [lineTerm_false_of_nospace hupsp]), toUpper_idem]
    show String.mk (upperFirstL (removeSpacesL (capWords (sepsToSpacesL
      (stripBracketsL s.data))))) = String.mk (Char.toUpper c :: r)
    rw [hd, h1, h2, h3, h4, h5]

/-- Witness for C6 at the repository's own examples. -/
theorem toPascalCase_idempotent_spec_witness :
    toPascalCase (toPascalCase "user-card") = toPascalCase "user-card" ∧
    toPascalCase "UserCard" = "UserCard" ∧
    toPascalCase "users" = String.mk (Char.toUpper 'u' :: "sers".data) := by
  have h1 := toPascalCase_idempotent_spec "user-card"
  have h2 := toPascalCase_idempotent_spec "UserCard"
  have h3 := toPascalCase_idempotent_spec "users"
  refine ⟨h1.1, h2.2.1 (by decide) ?_, h3.2.2 (by decide) 'u' "sers".data rfl⟩
  intro c r hcr
  rw [show "UserCard".data = 'U' :: "serCard".data from rfl] at hcr
  injection hcr with hc _
  rw [← hc]
  decide

/-! ### Claims about PathSegmenter and PrefixCalculator -/

/-- C4: the skip substitution of extractPathInfo replaces the last directory
segment by the immediately preceding one, performed exactly once -- the preceding
segment is taken even when it is itself a skip-set member -- when the last segment
is a literal member of the effective skip set and a preceding segment exists; when
the directory portion has a single segment, the last segment is kept and no
substitution happens. -/
theorem extractPathInfo_skip_once (p : String) (opts : PathOptions) :
    ((opts.skipDirs.getD DEFAULT_SKIP_DIRS).contains
        (((splitOnChar '/' (parsePath p).dir.data).map String.mk).getLastD "") = true →
      1 < ((splitOnChar '/' (parsePath p).dir.data).map String.mk).length →
      (extractPathInfo p opts).dirName =
        stripBrackets (((splitOnChar '/' (parsePath p).dir.data).map String.mk).getD
          (((splitOnChar '/' (parsePath p).dir.data).map String.mk).length - 2) "")) ∧
    (((splitOnChar '/' (parsePath p).dir.data).map String.mk).length = 1 →
      (extractPathInfo p opts).dirName =
        stripBrackets (((splitOnChar '/' (parsePath p).dir.data).map String.mk).getLastD "")) := by
  constructor
  · intro hmem hlen
    simp only [extractPathInfo, hmem, decide_eq_true hlen, Bool.and_self, if_true]
  · intro hlen
    simp only [extractPathInfo, hlen]
    simp

/-- Witness for C4: the last segment queries is skipped once, landing on src even
though src is itself a skip-set member; a single-segment directory is kept. -/
theorem extractPathInfo_skip_once_witness :
    (extractPathInfo "a/src/queries/F.gql" ⟨none⟩).dirName = "src" ∧
    (extractPathInfo "alone/F.gql" ⟨none⟩).dirName = "alone" := by
  have h1 := (extractPathInfo_skip_once "a/src/queries/F.gql" ⟨none⟩).1 (by decide) (by decide)
  have h2 := (extractPathInfo_skip_once "alone/F.gql" ⟨none⟩).2 (by decide)
  constructor
  · rw [h1]
    decide
  · rw [h2]
    decide

/-- C8: calculatePrefix returns exactly one copy of the normalized candidate when
the two normalized candidates are equal -- never the doubled concatenation -- and
the concatenation pascalDir ++ pascalFile otherwise. -/
theorem calculatePrefix_no_duplication (p : String) (opts : PathOptions) :
    (toPascalCase (extractPathInfo p opts).dirName =
        toPascalCase (extractPathInfo p opts).fileName →
      calculatePrefix p opts = toPascalCase (extractPathInfo p opts).dirName ∧
      (toPascalCase (extractPathInfo p opts).dirName ≠ "" →
        calculatePrefix p opts ≠
          toPascalCase (extractPathInfo p opts).dirName ++
            toPascalCase (extractPathInfo p opts).dirName)) ∧
    (toPascalCase (extractPathInfo p opts).dirName ≠
        toPascalCase (extractPathInfo p opts).fileName →
      calculatePrefix p opts =
        toPascalCase (extractPathInfo p opts).dirName ++
          toPascalCase (extractPathInfo p opts).fileName) := by
  constructor
  · intro heq
    have hres : calculatePrefix p opts = toPascalCase (extractPathInfo p opts).dirName := by
      simp only [calculatePrefix]
      rw [if_pos (beq_iff_eq.mpr heq)]
    refine ⟨hres, fun hne hcontra => ?_⟩
    rw [hres] at hcontra
    have hlen := congrArg String.length hcontra
    rw [String.length_append] at hlen
    have hlen0 : (toPascalCase (extractPathInfo p opts).dirName).length = 0 := by omega
    apply hne
    have hdata : (toPascalCase (extractPathInfo p opts).dirName).data = [] :=
      List.length_eq_zero.mp hlen0
    calc toPascalCase (extractPathInfo p opts).dirName
        = String.mk (toPascalCase (extractPathInfo p opts).dirName).data := rfl
      _ = String.mk [] := by rw [hdata]
      _ = "" := rfl
  · intro hne
    simp only [calculatePrefix]
    rw [if_neg (fun h => hne (beq_iff_eq.mp h))]

/-- Witness for C8: the repository's no-duplication and concatenation examples. -/
theorem calculatePrefix_no_duplication_witness :
    calculatePrefix "features/users/Users.vue" ⟨none⟩ = "Users" ∧
    calculatePrefix "features/users/Users.vue" ⟨none⟩ ≠ "UsersUsers" ∧
    calculatePrefix "features/users/components/UserCard.vue" ⟨none⟩ = "UsersUserCard" := by
  have h1 := (calculatePrefix_no_duplication "features/users/Users.vue" ⟨none⟩).1 (by decide)
  have h2 := (calculatePrefix_no_duplication "features/users/components/UserCard.vue" ⟨none⟩).2
    (by decide)
  refine ⟨?_, ?_, ?_⟩
  · rw [h1.1]
    decide
  · have hne := h1.2 (by decide)
    intro hcontra
    apply hne
    rw [hcontra]
    decide
  · rw [h2]
    decide

/-- C1 as frozen is refuted: with the caller-supplied skip set [], the directory
candidate queries is not a member of the effective skip set, the overlap branch
applies with distinct non-empty candidates, yet the result is the empty string and
not pascalDir, because the meaningfulness check always consults the default skip
set. -/
theorem calculatePrefixWithTypeName_skip_set_cex :
    hasSignificantOverlap "User"
      (extractPathInfo "a/queries/Users.gql" ⟨some []⟩).fileName = true ∧
    toPascalCase (extractPathInfo "a/queries/Users.gql" ⟨some []⟩).dirName ≠
      toPascalCase (extractPathInfo "a/queries/Users.gql" ⟨some []⟩).fileName ∧
    toPascalCase (extractPathInfo "a/queries/Users.gql" ⟨some []⟩).dirName ≠ "" ∧
    (([] : List String).contains
      (jsToLower (extractPathInfo "a/queries/Users.gql" ⟨some []⟩).dirName)) = false ∧
    calculatePrefixWithTypeName "a/queries/Users.gql" "User" ⟨some []⟩ ≠
      toPascalCase (extractPathInfo "a/queries/Users.gql" ⟨some []⟩).dirName := by
  refine ⟨by decide, by decide, by decide, by decide, by decide⟩

/-- C1 (amended): when the overlap test on the pre-normalization file candidate is
true and the normalized candidates differ, calculatePrefixWithTypeName returns
pascalDir exactly when pascalDir is non-empty and the lower-cased directory
candidate is not a member of the DEFAULT skip set -- the check always consults the
default set, even when the caller supplies skipDirs -- and the empty string
otherwise. -/
theorem calculatePrefixWithTypeName_overlap_branch (p typeName : String)
    (opts : PathOptions)
    (hov : hasSignificantOverlap typeName (extractPathInfo p opts).fileName = true)
    (hne : toPascalCase (extractPathInfo p opts).dirName ≠
      toPascalCase (extractPathInfo p opts).fileName) :
    calculatePrefixWithTypeName p typeName opts =
      if toPascalCase (extractPathInfo p opts).dirName ≠ "" ∧
          DEFAULT_SKIP_DIRS.contains (jsToLower (extractPathInfo p opts).dirName) = false
      then toPascalCase (extractPathInfo p opts).dirName
      else "" := by
  have hbeq : (toPascalCase (extractPathInfo p opts).dirName ==
      toPascalCase (extractPathInfo p opts).fileName) = false := beq_eq_false_iff_ne.mpr hne
  simp only [calculatePrefixWithTypeName, hov, hbeq, if_true, Bool.false_eq_true, if_false]
  by_cases hpd : toPascalCase (extractPathInfo p opts).dirName = ""
  · rw [if_neg (by simp [hpd]), if_neg (by simp [hpd])]
  · by_cases hct : DEFAULT_SKIP_DIRS.contains (jsToLower (extractPathInfo p opts).dirName) = true
    · have hcnot : ¬ (toPascalCase (extractPathInfo p opts).dirName ≠ "" ∧
          DEFAULT_SKIP_DIRS.contains (jsToLower (extractPathInfo p opts).dirName) = false) :=
        fun hand => by
          rw [hand.2] at hct
          exact Bool.noConfusion hct
      rw [if_neg (by rw [hct]; simp), if_neg hcnot]
    · have hcf : DEFAULT_SKIP_DIRS.contains
          (jsToLower (extractPathInfo p opts).dirName) = false := by
        cases hb : DEFAULT_SKIP_DIRS.contains (jsToLower (extractPathInfo p opts).dirName) with
        | true => exact absurd hb hct
        | false => rfl
      rw [if_pos (by rw [hcf]; simp [beq_eq_false_iff_ne.mpr hpd]), if_pos ⟨hpd, hcf⟩]

/-- Witness for C1 (amended) at a meaningful directory candidate. -/
theorem calculatePrefixWithTypeName_overlap_branch_witness :
    hasSignificantOverlap "AssignmentMessage"
      (extractPathInfo "features/users/AssignmentMessages.gql" ⟨none⟩).fileName = true ∧
    toPascalCase (extractPathInfo "features/users/AssignmentMessages.gql" ⟨none⟩).dirName ≠
      toPascalCase (extractPathInfo "features/users/AssignmentMessages.gql" ⟨none⟩).fileName ∧
    calculatePrefixWithTypeName "features/users/AssignmentMessages.gql"
        "AssignmentMessage" ⟨none⟩ =
      if toPascalCase (extractPathInfo "features/users/AssignmentMessages.gql" ⟨none⟩).dirName
            ≠ "" ∧
          DEFAULT_SKIP_DIRS.contains
            (jsToLower (extractPathInfo "features/users/AssignmentMessages.gql"
              ⟨none⟩).dirName) = false
      then toPascalCase (extractPathInfo "features/users/AssignmentMessages.gql" ⟨none⟩).dirName
      else "" :=
  ⟨by decide, by decide,
    calculatePrefixWithTypeName_overlap_branch "features/users/AssignmentMessages.gql"
      "AssignmentMessage" ⟨none⟩ (by decide) (by decide)⟩

/-- C5 as frozen is refuted at its own scenario: after skip resolution the
directory candidate of src/queries/AssignmentMessages.gql is src, and its
normalized form Src is not equal to the normalized file candidate
AssignmentMessages. -/
theorem scenario3_equal_candidates_cex :
    toPascalCase (extractPathInfo "src/queries/AssignmentMessages.gql" ⟨none⟩).dirName ≠
      toPascalCase (extractPathInfo "src/queries/AssignmentMessages.gql" ⟨none⟩).fileName := by
  decide

/-- C5 (amended): for src/queries/AssignmentMessages.gql with type
AssignmentMessage and the default skip set, the overlap test is true, skip
resolution yields the directory candidate src -- itself a default skip member, so
the directory is not meaningful -- the prefix is the empty string through that
branch, and the expected name is AssignmentMessage. -/
theorem scenario3_amended :
    hasSignificantOverlap "AssignmentMessage"
      (extractPathInfo "src/queries/AssignmentMessages.gql" ⟨none⟩).fileName = true ∧
    (extractPathInfo "src/queries/AssignmentMessages.gql" ⟨none⟩).dirName = "src" ∧
    (extractPathInfo "src/queries/AssignmentMessages.gql" ⟨none⟩).fileName =
      "AssignmentMessages" ∧
    DEFAULT_SKIP_DIRS.contains
      (jsToLower (extractPathInfo "src/queries/AssignmentMessages.gql" ⟨none⟩).dirName) = true ∧
    calculatePrefixWithTypeName "src/queries/AssignmentMessages.gql"
      "AssignmentMessage" ⟨none⟩ = "" ∧
    generateExpectedName
      (calculatePrefixWithTypeName "src/queries/AssignmentMessages.gql"
        "AssignmentMessage" ⟨none⟩)
      "AssignmentMessage" = "AssignmentMessage" := by
  refine ⟨by decide, by decide, by decide, by decide, by decide, by decide⟩

end GraphQLNaming
